import Mathlib

set_option maxRecDepth 8000

/-!
Verification of the randomic PRNG library (src/randomic.h).

The C code is shallowly embedded: 32-bit unsigned words are natural numbers
with arithmetic taken modulo 2^32; the four-word generator state is the
structure `randomic_ctx`; the pure functions `randomicStep`, `randomicSeed`,
`randomicNext` and the distribution mappers are translated directly from the
source.  IEEE-754 binary32/binary64 arithmetic in the distribution mappers is
modelled exactly over ℚ by the round-to-nearest-even function `flRound`
(24-bit and 53-bit significands); every value arising in the mappers lies in
the positive normal range of the respective format, where this model agrees
with IEEE-754.  The lock-free compare-and-exchange loop of `randomicNext` is
modelled by the labelled transition system `RStep` over configurations of one
shared state and a list of threads.
-/

namespace Randomic

/-- The four-word generator state, `struct randomic_ctx` from src/randomic.h.
Each field holds a `uint32_t` value, represented as a natural number. -/
structure randomic_ctx where
  a : ℕ
  b : ℕ
  c : ℕ
  d : ℕ
deriving DecidableEq

/-- Well-formedness: each word is a genuine 32-bit value. -/
def randomic_ctx.Wf (s : randomic_ctx) : Prop :=
  s.a < 2^32 ∧ s.b < 2^32 ∧ s.c < 2^32 ∧ s.d < 2^32

instance (s : randomic_ctx) : Decidable s.Wf := by
  unfold randomic_ctx.Wf; infer_instance

/-- Embedding of `randomicStep` (src/randomic.h lines 115-123):
`e = ctx.a - ((ctx.b << 27)|(ctx.b >> 5)); ctx.a = ctx.b ^ ((ctx.c << 17)|(ctx.c >> 15));
ctx.b = ctx.c + ctx.d; ctx.c = ctx.d + e; ctx.d = e + ctx.a;`
with all `uint32_t` arithmetic taken modulo 2^32 (the wrapping subtraction
`x - y` on `uint32_t` is `(x + (2^32 - y)) % 2^32` for `y < 2^32`). -/
def randomicStep (ctx : randomic_ctx) : randomic_ctx :=
  let e := (ctx.a + (2^32 - (((ctx.b <<< 27) % 2^32) ||| (ctx.b >>> 5)))) % 2^32
  let a := ctx.b ^^^ (((ctx.c <<< 17) % 2^32) ||| (ctx.c >>> 15))
  let b := (ctx.c + ctx.d) % 2^32
  let c := (ctx.d + e) % 2^32
  let d := (e + a) % 2^32
  ⟨a, b, c, d⟩

/-- A 32-bit left rotation by `n` places, written arithmetically as the spec
words it: the low `32 - n` bits move up by `n` places and the high `n` bits
wrap around to the bottom. -/
def rotl (x n : ℕ) : ℕ := (x * 2^n + x / 2^(32 - n)) % 2^32

/-- The spec's transition formula, written with `rotl` and with the
subtraction performed in ℤ and reduced modulo 2^32:
`e = a - rotl(b, 27); a' = b xor rotl(c, 17); b' = c + d; c' = d + e; d' = e + a'`. -/
def stepSpec (s : randomic_ctx) : randomic_ctx :=
  let e : ℕ := (((s.a : ℤ) - ((rotl s.b 27 : ℕ) : ℤ)) % (2^32 : ℤ)).toNat
  let a := s.b ^^^ rotl s.c 17
  let b := (s.c + s.d) % 2^32
  let c := (s.d + e) % 2^32
  let d := (e + a) % 2^32
  ⟨a, b, c, d⟩

/-- Embedding of `randomicSeed` (src/randomic.h lines 77-86): build the
initial state `a = 0xf1ea5eed`, `b = c = d = seed`, then run the step
function 20 times (a `for` loop, modelled as a fold); the result is the
state the function stores into the context. -/
def randomicSeed (seed : ℕ) : randomic_ctx :=
  (List.range 20).foldl (fun c _ => randomicStep c) ⟨0xf1ea5eed, seed, seed, seed⟩

/-- Embedding of `randomicNext` (src/randomic.h lines 107-112) executed
without interference: the loaded state is `ctx`, the compare-and-exchange
installs `ntx = randomicStep ctx` and the call returns `ntx.d`.  The function
yields the new context state together with the returned draw.  (The
concurrent behaviour of the same code is modelled by `RStep` below.) -/
def randomicNext (ctx : randomic_ctx) : randomic_ctx × ℕ :=
  let ntx := randomicStep ctx
  (ntx, ntx.d)

/-- The list of the first `n` raw draws obtained by driving `randomicNext`
sequentially from context state `c`. -/
def rdraws : randomic_ctx → ℕ → List ℕ
  | _, 0 => []
  | c, n + 1 => (randomicNext c).2 :: rdraws (randomicNext c).1 n

/-- Round a rational to an integer, ties to even (the IEEE-754 default
tie-breaking rule). -/
def rndHalfEven (y : ℚ) : ℤ :=
  let n := ⌊y⌋
  let f := y - (n : ℚ)
  if 1/2 < f then n + 1
  else if f < 1/2 then n
  else if n % 2 = 0 then n else n + 1

/-- The binary exponent of a positive rational `x`: the unique `e` with
`2^e ≤ x < 2^(e+1)`. -/
def qexp (x : ℚ) : ℤ :=
  let k : ℤ := (Nat.log2 x.num.toNat : ℤ) - (Nat.log2 x.den : ℤ)
  if (2:ℚ)^k ≤ x then k else k - 1

/-- Round-to-nearest-even with a significand of `prec` bits: the exact
IEEE-754 rounding of a positive normal-range value to a floating-point
format with `prec` significand bits (binary32 has `prec = 24`, binary64 has
`prec = 53`).  Nonpositive inputs are mapped to 0; every value these proofs
apply it to is nonnegative and within the normal range of its format. -/
def flRound (prec : ℕ) (x : ℚ) : ℚ :=
  if x ≤ 0 then 0
  else
    let s : ℤ := (prec : ℤ) - 1 - qexp x
    ((rndHalfEven (x * 2^s) : ℤ) : ℚ) * 2^(-s)

/-- IEEE-754 binary32 rounding (24 significand bits). -/
def fl32 (x : ℚ) : ℚ := flRound 24 x

/-- IEEE-754 binary64 rounding (53 significand bits). -/
def fl64 (x : ℚ) : ℚ := flRound 53 x

/-- Round `r / 2^t` to a natural number, ties to even: the combinational
form of `rndHalfEven` on naturals used to evaluate `flRound` on integer
inputs. -/
def roundNatDiv (r t : ℕ) : ℕ :=
  let q := r / 2^t
  let rem := r % 2^t
  if 2^t < 2 * rem then q + 1
  else if 2 * rem < 2^t then q
  else if q % 2 = 0 then q else q + 1

/-- Embedding of `randomicFloatCO` (src/randomic.h lines 87-91) as a function
of the raw draw `r`: `(float)(r >> 8)/16777216.0f`, each float operation
rounded to binary32. -/
def randomicFloatCO (r : ℕ) : ℚ := fl32 (fl32 ((r >>> 8 : ℕ) : ℚ) / 16777216)

/-- Embedding of `randomicFloatCC` (src/randomic.h lines 92-96) as a function
of the raw draw `r`: `(float)r/(float)UINT32_MAX`, each float operation
rounded to binary32. -/
def randomicFloatCC (r : ℕ) : ℚ := fl32 (fl32 (r : ℚ) / fl32 4294967295)

/-- Embedding of `randomicDoubleCO` (src/randomic.h lines 97-101) as a
function of the raw draw `r`: `(double)r/4294967296.0`, each double
operation rounded to binary64. -/
def randomicDoubleCO (r : ℕ) : ℚ := fl64 (fl64 (r : ℚ) / 4294967296)

/-- The set of values `randomicFloatCC` can return over all 2^32 raw draws. -/
def floatCCvals : Finset ℚ := (Finset.range (2^32)).image randomicFloatCC

/-- Program counter of one thread running `randomicNext` on a shared
context: either between calls, or inside the retry loop holding the state
snapshot `ctx` it last loaded. -/
inductive ThreadPc where
  | idle : ThreadPc
  | looping : randomic_ctx → ThreadPc
deriving DecidableEq

/-- One thread of the concurrency model: the number of `randomicNext` calls
it still has to perform, and its program counter. -/
structure ThreadSt where
  callsLeft : ℕ
  pc : ThreadPc
deriving DecidableEq

/-- A configuration of the concurrent system: the shared atomic state of the
context and the list of threads. -/
structure Config where
  shared : randomic_ctx
  threads : List ThreadSt
deriving DecidableEq

/-- Labels of the transition system: thread `i` performs the initial atomic
load of a `randomicNext` call, a failed compare-and-exchange attempt, or a
successful compare-and-exchange returning the draw `ret`. -/
inductive Label where
  | load (i : ℕ)
  | casFail (i : ℕ)
  | casSucc (i : ℕ) (ret : ℕ)
deriving DecidableEq

/-- Interleaving semantics of `randomicNext` (src/randomic.h lines 107-112).
`load`: a thread with calls remaining atomically loads the shared state and
enters the retry loop.  `casFail`: a failed `atomic_compare_exchange_weak`
leaves the shared state untouched and refreshes the thread's snapshot with
the current shared state (the weak primitive may fail spuriously, so no
mismatch condition is required).  `casSucc`: when the snapshot still equals
the shared state, the exchange installs `randomicStep snap` and the call
returns the `d` field of the installed state. -/
inductive RStep : Config → Label → Config → Prop where
  | load {cfg : Config} {i m : ℕ} :
      cfg.threads[i]? = some ⟨m + 1, .idle⟩ →
      RStep cfg (.load i) ⟨cfg.shared, cfg.threads.set i ⟨m + 1, .looping cfg.shared⟩⟩
  | casFail {cfg : Config} {i m : ℕ} {snap : randomic_ctx} :
      cfg.threads[i]? = some ⟨m, .looping snap⟩ →
      RStep cfg (.casFail i) ⟨cfg.shared, cfg.threads.set i ⟨m, .looping cfg.shared⟩⟩
  | casSucc {cfg : Config} {i m : ℕ} {snap : randomic_ctx} :
      cfg.threads[i]? = some ⟨m + 1, .looping snap⟩ →
      snap = cfg.shared →
      RStep cfg (.casSucc i (randomicStep snap).d)
        ⟨randomicStep snap, cfg.threads.set i ⟨m, .idle⟩⟩

/-- Reflexive-transitive closure of `RStep` along a trace of labels. -/
inductive Steps : Config → List Label → Config → Prop where
  | nil {cfg : Config} : Steps cfg [] cfg
  | cons {c1 c2 c3 : Config} {l : Label} {ls : List Label} :
      RStep c1 l c2 → Steps c2 ls c3 → Steps c1 (l :: ls) c3

/-- The number of successful compare-and-exchange operations in a trace. -/
def countSucc (tr : List Label) : ℕ :=
  tr.countP fun l => match l with
    | .casSucc _ _ => true
    | _ => false

/-- Total number of `randomicNext` calls the threads of a configuration
still have to perform. -/
def sumCalls (cfg : Config) : ℕ := (cfg.threads.map ThreadSt.callsLeft).sum

/-! ### Bit-level helper lemmas -/

/-- The shift-or expression of the source equals the arithmetic 32-bit left
rotation, for 32-bit values and rotation amounts strictly between 0 and 32. -/
theorem shiftor_eq_rotl (x n : ℕ) (hx : x < 2^32) (hn1 : 0 < n) (hn2 : n < 32) :
    ((x <<< n) % 2^32) ||| (x >>> (32 - n)) = rotl x n := by
  have hpow : 2^(32 - n) * 2^n = 2^32 := by
    rw [← pow_add]; congr 1; omega
  set lo := x % 2^(32 - n) with hlo_def
  set hi := x / 2^(32 - n) with hhi_def
  have hhi : hi < 2^n := by
    apply Nat.div_lt_of_lt_mul
    rw [hpow]; exact hx
  have hxmod : lo < 2^(32 - n) := Nat.mod_lt _ (by positivity)
  have hshr : x >>> (32 - n) = hi := Nat.shiftRight_eq_div_pow x (32 - n)
  have hshl : (x <<< n) % 2^32 = 2^n * lo := by
    rw [Nat.shiftLeft_eq, ← hpow, Nat.mul_mod_mul_right, hlo_def]
    ring
  have hsum : 2^n * lo + hi < 2^32 := by
    have h1 : 2^n * lo + hi < 2^n * (lo + 1) := by
      rw [Nat.mul_succ]; omega
    have h2 : 2^n * (lo + 1) ≤ 2^n * 2^(32 - n) := Nat.mul_le_mul_left _ (by omega)
    have h3 : 2^n * 2^(32 - n) = 2^32 := by rw [mul_comm]; exact hpow
    rw [h3] at h2
    omega
  rw [hshr, hshl, ← Nat.mul_add_lt_is_or hhi lo, rotl]
  have hxd : x = 2^(32 - n) * hi + lo := (Nat.div_add_mod x (2^(32 - n))).symm
  have hmul : x * 2^n = 2^32 * hi + 2^n * lo := by
    calc x * 2^n = (2^(32 - n) * hi + lo) * 2^n := by rw [← hxd]
    _ = 2^(32 - n) * 2^n * hi + lo * 2^n := by ring
    _ = 2^32 * hi + 2^n * lo := by rw [hpow]; ring
  rw [hmul, add_assoc, Nat.mul_add_mod, Nat.mod_eq_of_lt hsum]

/-- Wrapping `uint32_t` subtraction agrees with subtraction in ℤ reduced
modulo 2^32. -/
theorem sub32_eq (a r : ℕ) (_ha : a < 2^32) (hr : r < 2^32) :
    (((a : ℤ) - (r : ℤ)) % (2^32 : ℤ)).toNat = (a + (2^32 - r)) % 2^32 := by
  omega

/-! ### C1: the step function computes the smallprng formula -/

/-- C1: the step function is a pure total function on 4-word states, and on
every well-formed 32-bit state it computes, modulo 2^32, exactly
`e = a - rotl(b, 27); a' = b xor rotl(c, 17); b' = c + d; c' = d + e;
d' = e + a'` with 32-bit left rotations by 27 and 17. -/
theorem randomicStep_eq_stepSpec (s : randomic_ctx) (h : s.Wf) :
    randomicStep s = stepSpec s := by
  obtain ⟨ha, hb, hc, hd⟩ := h
  have h27 : ((s.b <<< 27) % 2^32) ||| (s.b >>> 5) = rotl s.b 27 := by
    have := shiftor_eq_rotl s.b 27 hb (by norm_num) (by norm_num)
    simpa using this
  have h17 : ((s.c <<< 17) % 2^32) ||| (s.c >>> 15) = rotl s.c 17 := by
    have := shiftor_eq_rotl s.c 17 hc (by norm_num) (by norm_num)
    simpa using this
  have hrot : rotl s.b 27 < 2^32 := Nat.mod_lt _ (by positivity)
  have he := sub32_eq s.a (rotl s.b 27) ha hrot
  simp only [randomicStep, stepSpec, h27, h17, he]

/-- Witness for C1 at the concrete state (1, 2, 3, 4). -/
theorem randomicStep_eq_stepSpec_witness :
    (randomic_ctx.mk 1 2 3 4).Wf ∧
      randomicStep ⟨1, 2, 3, 4⟩ = stepSpec ⟨1, 2, 3, 4⟩ :=
  ⟨by decide, randomicStep_eq_stepSpec ⟨1, 2, 3, 4⟩ (by decide)⟩

/-! ### C2: seeding builds the initial state and warms up 20 steps -/

/-- Folding a constant function over `List.range n` iterates it `n` times. -/
theorem foldl_range_const {α : Type} (f : α → α) (n : ℕ) (x : α) :
    (List.range n).foldl (fun c _ => f c) x = f^[n] x := by
  induction n generalizing x with
  | zero => simp
  | succ k ih =>
    rw [List.range_succ, List.foldl_append, ih]
    simp [Function.iterate_succ_apply']

/-- C2: for every seed value, `randomicSeed` builds the initial state
`a = 0xF1EA5EED`, `b = c = d = seed`, applies the step function exactly 20
times discarding intermediate results, and the published state is the 20-fold
iterate of the step function on that initial state. -/
theorem randomicSeed_eq_iterate (seed : ℕ) :
    randomicSeed seed = randomicStep^[20] ⟨0xf1ea5eed, seed, seed, seed⟩ :=
  foldl_range_const randomicStep 20 _

/-! ### C3: a successful advance returns the d field of the installed state -/

/-- C3: sequentially, `randomicNext` is the state transformer installing
`randomicStep s` and returning its `d` field; and in the concurrent model
every successful compare-and-exchange installs exactly the step of the
current shared state and returns the `d` field of the newly installed state. -/
theorem next_returns_installed_d :
    (∀ s : randomic_ctx, randomicNext s = (randomicStep s, (randomicStep s).d))
    ∧ (∀ (cfg : Config) (i v : ℕ) (cfg' : Config),
        RStep cfg (.casSucc i v) cfg' →
        cfg'.shared = randomicStep cfg.shared ∧ v = cfg'.shared.d) := by
  constructor
  · intro s; rfl
  · intro cfg i v cfg' h
    cases h with
    | casSucc hget hsnap =>
      subst hsnap
      exact ⟨rfl, rfl⟩

/-- Witness for C3: a concrete successful exchange from the state (1,2,3,4)
installs its step and returns the d field of the installed state. -/
theorem next_returns_installed_d_witness :
    (Config.mk (randomicStep ⟨1, 2, 3, 4⟩) [⟨0, ThreadPc.idle⟩]).shared
        = randomicStep (Config.mk ⟨1, 2, 3, 4⟩ [⟨1, ThreadPc.looping ⟨1, 2, 3, 4⟩⟩]).shared
    ∧ (randomicStep ⟨1, 2, 3, 4⟩).d
        = (Config.mk (randomicStep ⟨1, 2, 3, 4⟩) [⟨0, ThreadPc.idle⟩]).shared.d :=
  next_returns_installed_d.2 ⟨⟨1, 2, 3, 4⟩, [⟨1, ThreadPc.looping ⟨1, 2, 3, 4⟩⟩]⟩ 0
    (randomicStep ⟨1, 2, 3, 4⟩).d ⟨randomicStep ⟨1, 2, 3, 4⟩, [⟨0, ThreadPc.idle⟩]⟩
    (RStep.casSucc rfl rfl)

/-! ### C4: the raw draw sequence is a function of the seed alone -/

/-- C4: two contexts seeded with the same seed produce identical sequences
of raw draws when driven sequentially, for every length; re-seeding with the
same seed therefore resets the stream. -/
theorem same_seed_same_draws (s n : ℕ) (c1 c2 : randomic_ctx)
    (h1 : c1 = randomicSeed s) (h2 : c2 = randomicSeed s) :
    rdraws c1 n = rdraws c2 n := by
  rw [h1, h2]

/-- Witness for C4 with seed 7 and three draws. -/
theorem same_seed_same_draws_witness :
    randomicSeed 7 = randomicSeed 7 ∧
      rdraws (randomicSeed 7) 3 = rdraws (randomicSeed 7) 3 :=
  ⟨rfl, same_seed_same_draws 7 3 _ _ rfl rfl⟩

/-! ### C5: strict advancement fails on fixed points of the step function -/

/-- C5 counterexample: the all-zero state is a fixed point of the step
function, so a successful advance from it installs the very same state and
the state does not strictly advance. -/
theorem step_zero_fixed :
    randomicStep ⟨0, 0, 0, 0⟩ = ⟨0, 0, 0, 0⟩
    ∧ (randomicNext ⟨0, 0, 0, 0⟩).1 = ⟨0, 0, 0, 0⟩ := by
  exact ⟨rfl, rfl⟩

/-- C5 amended: a successful advance installs exactly the step of the old
state, and the installed state differs from the old state exactly when the
old state is not a fixed point of the step function. -/
theorem next_advances_unless_fixed (s : randomic_ctx) (h : randomicStep s ≠ s) :
    (randomicNext s).1 = randomicStep s ∧ (randomicNext s).1 ≠ s :=
  ⟨rfl, h⟩

/-- Witness for the amended C5 at the state (1, 2, 3, 4). -/
theorem next_advances_unless_fixed_witness :
    (randomicNext ⟨1, 2, 3, 4⟩).1 = randomicStep ⟨1, 2, 3, 4⟩
    ∧ (randomicNext ⟨1, 2, 3, 4⟩).1 ≠ ⟨1, 2, 3, 4⟩ :=
  next_advances_unless_fixed ⟨1, 2, 3, 4⟩ (by decide)

/-! ### C10: no lost or duplicated transitions under concurrency -/

/-- Replacing the element at a valid index changes a mapped sum by the
difference of the images of the new and old elements. -/
theorem sum_map_set (f : ThreadSt → ℕ) (l : List ThreadSt) (i : ℕ) (x y : ThreadSt)
    (h : l[i]? = some y) :
    ((l.set i x).map f).sum + f y = (l.map f).sum + f x := by
  induction l generalizing i with
  | nil => simp at h
  | cons hd tl ih =>
    cases i with
    | zero =>
      simp only [List.getElem?_cons_zero, Option.some_inj] at h
      subst h
      simp [List.set]
      omega
    | succ j =>
      simp only [List.getElem?_cons_succ] at h
      have := ih j h
      simp only [List.set, List.map_cons, List.sum_cons]
      omega

/-- Counting successes: a load label does not count. -/
theorem countSucc_cons_load (i : ℕ) (ls : List Label) :
    countSucc (Label.load i :: ls) = countSucc ls := by
  simp [countSucc]

/-- Counting successes: a failed exchange does not count. -/
theorem countSucc_cons_fail (i : ℕ) (ls : List Label) :
    countSucc (Label.casFail i :: ls) = countSucc ls := by
  simp [countSucc]

/-- Counting successes: a successful exchange counts once. -/
theorem countSucc_cons_succ (i r : ℕ) (ls : List Label) :
    countSucc (Label.casSucc i r :: ls) = countSucc ls + 1 := by
  simp [countSucc]

/-- Trace invariant of the concurrency model: along any trace, the remaining
calls plus the successful exchanges are conserved, and the shared state is
the iterate of the step function by the number of successful exchanges. -/
theorem steps_invariant {c1 : Config} {tr : List Label} {c2 : Config}
    (h : Steps c1 tr c2) :
    sumCalls c2 + countSucc tr = sumCalls c1 ∧
      c2.shared = randomicStep^[countSucc tr] c1.shared := by
  induction h with
  | nil => simp [countSucc]
  | @cons c0 cm c3 l ls hstep hrest ih =>
    obtain ⟨ih1, ih2⟩ := ih
    cases hstep with
    | @load i m hget =>
      have hsum := sum_map_set ThreadSt.callsLeft c0.threads i
        ⟨m + 1, ThreadPc.looping c0.shared⟩ ⟨m + 1, ThreadPc.idle⟩ hget
      rw [countSucc_cons_load]
      constructor
      · simp only [sumCalls] at ih1 ⊢
        simp at hsum ih1 ⊢
        omega
      · exact ih2
    | @casFail i m snap hget =>
      have hsum := sum_map_set ThreadSt.callsLeft c0.threads i
        ⟨m, ThreadPc.looping c0.shared⟩ ⟨m, ThreadPc.looping snap⟩ hget
      rw [countSucc_cons_fail]
      constructor
      · simp only [sumCalls] at ih1 ⊢
        simp at hsum ih1 ⊢
        omega
      · exact ih2
    | @casSucc i m snap hget hsnap =>
      subst hsnap
      have hsum := sum_map_set ThreadSt.callsLeft c0.threads i
        ⟨m, ThreadPc.idle⟩ ⟨m + 1, ThreadPc.looping c0.shared⟩ hget
      rw [countSucc_cons_succ]
      constructor
      · simp only [sumCalls] at ih1 ⊢
        simp at hsum ih1 ⊢
        omega
      · rw [Function.iterate_succ_apply]
        exact ih2

/-- C10: under arbitrary interleaving, a failed compare-and-exchange has no
observable effect on the context; along any trace the successive installed
states form the single linear chain of iterates of the step function, one
new link per successful exchange (no transition lost or duplicated); and
when N threads of M calls each all run to completion, the trace contains
exactly N * M successful exchanges. -/
theorem cas_linear_chain :
    (∀ (cfg : Config) (i : ℕ) (cfg' : Config),
        RStep cfg (.casFail i) cfg' → cfg'.shared = cfg.shared)
    ∧ (∀ (cfg : Config) (tr : List Label) (cfg' : Config),
        Steps cfg tr cfg' →
        cfg'.shared = randomicStep^[countSucc tr] cfg.shared)
    ∧ (∀ (s0 : randomic_ctx) (N M : ℕ) (tr : List Label) (cfg' : Config),
        Steps ⟨s0, List.replicate N ⟨M, .idle⟩⟩ tr cfg' →
        (∀ t ∈ cfg'.threads, t.callsLeft = 0) →
        countSucc tr = N * M) := by
  refine ⟨?_, ?_, ?_⟩
  · intro cfg i cfg' h
    cases h with
    | casFail hget => rfl
  · intro cfg tr cfg' h
    exact (steps_invariant h).2
  · intro s0 N M tr cfg' h hfin
    have hinv := (steps_invariant h).1
    have hstart : sumCalls ⟨s0, List.replicate N ⟨M, .idle⟩⟩ = N * M := by
      simp [sumCalls, List.map_replicate, List.sum_replicate, Nat.smul_one_eq_cast]
    have hend : sumCalls cfg' = 0 := by
      apply List.sum_eq_zero
      intro x hx
      obtain ⟨t, ht, rfl⟩ := List.mem_map.1 hx
      exact hfin t ht
    omega

/-- Witness for C10: one thread performing one call via a load and a
successful exchange yields exactly one successful transition. -/
theorem cas_linear_chain_witness :
    countSucc [Label.load 0, Label.casSucc 0 (randomicStep ⟨1, 2, 3, 4⟩).d] = 1 * 1 := by
  have hsteps : Steps ⟨⟨1, 2, 3, 4⟩, List.replicate 1 ⟨1, .idle⟩⟩
      [Label.load 0, Label.casSucc 0 (randomicStep ⟨1, 2, 3, 4⟩).d]
      ⟨randomicStep ⟨1, 2, 3, 4⟩, [⟨0, ThreadPc.idle⟩]⟩ := by
    refine Steps.cons (RStep.load (i := 0) (m := 0) rfl) ?_
    refine Steps.cons (RStep.casSucc (i := 0) (m := 0) rfl rfl) Steps.nil
  exact cas_linear_chain.2.2 ⟨1, 2, 3, 4⟩ 1 1 _ _ hsteps (by decide)

/-! ### Lemmas about the IEEE-754 rounding model -/

/-- Rounding an integer returns it unchanged. -/
theorem rndHalfEven_intCast (n : ℤ) : rndHalfEven ((n : ℤ) : ℚ) = n := by
  simp [rndHalfEven, Int.floor_intCast]

/-- Round-to-nearest never overshoots by more than one half. -/
theorem rndHalfEven_le (y : ℚ) : (rndHalfEven y : ℚ) ≤ y + 1/2 := by
  simp only [rndHalfEven]
  have hfl := Int.floor_le y
  have hlt := Int.lt_floor_add_one y
  split_ifs with h1 h2 h3 <;> push_cast <;> linarith

/-- Round-to-nearest never undershoots by more than one half. -/
theorem rndHalfEven_ge (y : ℚ) : y - 1/2 ≤ (rndHalfEven y : ℚ) := by
  simp only [rndHalfEven]
  have hfl := Int.floor_le y
  have hlt := Int.lt_floor_add_one y
  split_ifs with h1 h2 h3 <;> push_cast <;> linarith

/-- Rounding a nonnegative rational yields a nonnegative integer. -/
theorem rndHalfEven_nonneg (y : ℚ) (h : 0 ≤ y) : 0 ≤ rndHalfEven y := by
  simp only [rndHalfEven]
  have hfl : 0 ≤ ⌊y⌋ := Int.floor_nonneg.mpr h
  split_ifs <;> omega

/-- The binary exponent brackets a positive rational between consecutive powers of two. -/
theorem qexp_spec (x : ℚ) (hx : 0 < x) :
    (2:ℚ)^(qexp x) ≤ x ∧ x < 2^(qexp x + 1) := by
  have hnum_pos : 0 < x.num := Rat.num_pos.mpr hx
  set p := x.num.toNat with hp_def
  have hp_pos : 0 < p := by omega
  have hden_pos : 0 < x.den := x.pos
  have hcast : ((p : ℚ)) = (x.num : ℚ) := by
    rw [hp_def]
    exact_mod_cast congrArg (fun z : ℤ => (z : ℚ)) (Int.toNat_of_nonneg hnum_pos.le)
  have hdenQ : (0:ℚ) < (x.den : ℚ) := by exact_mod_cast hden_pos
  have hxpq : (p : ℚ) / (x.den : ℚ) = x := by
    rw [hcast, Rat.num_div_den]
  set a := Nat.log2 p with ha_def
  set b := Nat.log2 x.den with hb_def
  have hpa1 : 2^a ≤ p := Nat.log2_self_le hp_pos.ne'
  have hpa2 : p < 2^(a+1) := Nat.lt_log2_self
  have hqb1 : 2^b ≤ x.den := Nat.log2_self_le hden_pos.ne'
  have hqb2 : x.den < 2^(b+1) := Nat.lt_log2_self
  have hpa1Q : (2:ℚ)^(a:ℤ) ≤ (p:ℚ) := by
    rw [zpow_natCast]; exact_mod_cast hpa1
  have hpa2Q : (p:ℚ) < 2^((a:ℤ)+1) := by
    rw [show ((a:ℤ)+1) = ((a+1 : ℕ) : ℤ) by push_cast; ring, zpow_natCast]
    exact_mod_cast hpa2
  have hqb1Q : (2:ℚ)^(b:ℤ) ≤ (x.den:ℚ) := by
    rw [zpow_natCast]; exact_mod_cast hqb1
  have hqb2Q : (x.den:ℚ) < 2^((b:ℤ)+1) := by
    rw [show ((b:ℤ)+1) = ((b+1 : ℕ) : ℤ) by push_cast; ring, zpow_natCast]
    exact_mod_cast hqb2
  have hx_lt : x < 2^((a:ℤ) - b + 1) := by
    rw [← hxpq, div_lt_iff₀ hdenQ]
    calc (p:ℚ) < 2^((a:ℤ)+1) := hpa2Q
    _ = 2^((a:ℤ) - b + 1) * 2^(b:ℤ) := by
        rw [← zpow_add₀ (two_ne_zero (α := ℚ))]
        congr 1
        ring
    _ ≤ 2^((a:ℤ) - b + 1) * (x.den:ℚ) :=
        mul_le_mul_of_nonneg_left hqb1Q (le_of_lt (zpow_pos two_pos _))
  have hx_gt : (2:ℚ)^((a:ℤ) - b - 1) < x := by
    rw [← hxpq, lt_div_iff₀ hdenQ]
    calc (2:ℚ)^((a:ℤ) - b - 1) * (x.den:ℚ)
        < 2^((a:ℤ) - b - 1) * 2^((b:ℤ)+1) :=
        mul_lt_mul_of_pos_left hqb2Q (zpow_pos two_pos _)
    _ = 2^(a:ℤ) := by
        rw [← zpow_add₀ (two_ne_zero (α := ℚ))]
        congr 1
        ring
    _ ≤ (p:ℚ) := hpa1Q
  simp only [qexp, ← hp_def, ← ha_def, ← hb_def]
  split_ifs with hle
  · exact ⟨hle, hx_lt⟩
  · push_neg at hle
    refine ⟨hx_gt.le, ?_⟩
    rw [show ((a:ℤ) - b - 1 + 1) = ((a:ℤ) - b) by ring]
    exact hle

/-- The binary exponent is uniquely determined by the bracketing property. -/
theorem qexp_unique (x : ℚ) (e : ℤ) (hx : 0 < x)
    (h1 : (2:ℚ)^e ≤ x) (h2 : x < 2^(e+1)) : qexp x = e := by
  obtain ⟨hq1, hq2⟩ := qexp_spec x hx
  have ha : qexp x < e + 1 := by
    by_contra hcon
    push_neg at hcon
    have := zpow_le_zpow_right₀ (by norm_num : (1:ℚ) ≤ 2) hcon
    linarith
  have hb : e < qexp x + 1 := by
    by_contra hcon
    push_neg at hcon
    have := zpow_le_zpow_right₀ (by norm_num : (1:ℚ) ≤ 2) hcon
    linarith
  omega

/-- Values with a significand of at most `prec` bits are fixed points of rounding: rounding is exact on representable values. -/
theorem flRound_exact (prec m : ℕ) (k : ℤ) (h1 : 0 < m) (h2 : m < 2^prec) :
    flRound prec ((m:ℚ) * 2^k) = (m:ℚ) * 2^k := by
  set x := (m:ℚ) * 2^k with hx_def
  have hxpos : 0 < x := mul_pos (by exact_mod_cast h1) (zpow_pos two_pos _)
  set a := Nat.log2 m with ha_def
  have ha1 : 2^a ≤ m := Nat.log2_self_le h1.ne'
  have ha2 : m < 2^(a+1) := Nat.lt_log2_self
  have haprec : a < prec := by
    have h3 := lt_of_le_of_lt ha1 h2
    exact (Nat.pow_lt_pow_iff_right (by norm_num)).mp h3
  have he : qexp x = (a:ℤ) + k := by
    apply qexp_unique x _ hxpos
    · rw [zpow_add₀ (two_ne_zero (α := ℚ))]
      apply mul_le_mul_of_nonneg_right _ (le_of_lt (zpow_pos two_pos _))
      rw [zpow_natCast]
      exact_mod_cast ha1
    · rw [show ((a:ℤ) + k + 1) = ((a:ℤ)+1) + k by ring,
        zpow_add₀ (two_ne_zero (α := ℚ))]
      apply mul_lt_mul_of_pos_right _ (zpow_pos two_pos _)
      rw [show ((a:ℤ)+1) = ((a+1:ℕ):ℤ) by push_cast; ring, zpow_natCast]
      exact_mod_cast ha2
  simp only [flRound, if_neg (not_le.mpr hxpos), he]
  set t : ℕ := prec - 1 - a with ht_def
  have hts : ((prec:ℤ) - 1 - ((a:ℤ) + k)) = (t:ℤ) - k := by
    rw [ht_def]; omega
  have hy : x * 2^((prec:ℤ) - 1 - ((a:ℤ) + k)) = ((m * 2^t : ℕ) : ℚ) := by
    rw [hts, hx_def, sub_eq_add_neg, zpow_add₀ (two_ne_zero (α := ℚ))]
    calc (m:ℚ) * 2^k * (2^(t:ℤ) * 2^(-k))
        = (m:ℚ) * 2^(t:ℤ) * (2^k * 2^(-k)) := by ring
    _ = (m:ℚ) * 2^(t:ℤ) := by
        rw [← zpow_add₀ (two_ne_zero (α := ℚ))]
        simp
    _ = ((m * 2^t : ℕ) : ℚ) := by
        rw [zpow_natCast]
        push_cast
        ring
  rw [hy]
  have hMcast : ((m * 2^t : ℕ) : ℚ) = (((m * 2^t : ℕ) : ℤ) : ℚ) := by push_cast; ring
  rw [hMcast, rndHalfEven_intCast, hts]
  rw [show (-((t:ℤ) - k)) = k - (t:ℤ) by ring]
  rw [hx_def]
  push_cast
  rw [sub_eq_add_neg, zpow_add₀ (two_ne_zero (α := ℚ)), ← zpow_natCast (2:ℚ) t]
  calc (m:ℚ) * 2^((t:ℕ):ℤ) * (2^k * 2^(-(t:ℤ)))
      = (m:ℚ) * 2^k * (2^((t:ℕ):ℤ) * 2^(-(t:ℤ))) := by ring
  _ = (m:ℚ) * 2^k := by
      rw [← zpow_add₀ (two_ne_zero (α := ℚ))]
      simp

/-- Rounding the rational `r / 2^t` agrees with the natural-number combinational rounding `roundNatDiv`. -/
theorem rndHalfEven_natDiv (r t : ℕ) :
    rndHalfEven ((r:ℚ) / (2:ℚ)^t) = (roundNatDiv r t : ℤ) := by
  set q := r / 2^t with hq_def
  set rem := r % 2^t with hrem_def
  have hPpos : 0 < 2^t := by positivity
  have hdm : 2^t * q + rem = r := Nat.div_add_mod r (2^t)
  have hremlt : rem < 2^t := Nat.mod_lt r hPpos
  have hPQ : (0:ℚ) < (2:ℚ)^t := by positivity
  have hrQ : (r:ℚ) = (q:ℚ) * (2:ℚ)^t + (rem:ℚ) := by
    rw [← hdm]; push_cast; ring
  have hremQ0 : (0:ℚ) ≤ (rem:ℚ) := by positivity
  have hremQlt : (rem:ℚ) < (2:ℚ)^t := by exact_mod_cast hremlt
  have hfloor : ⌊(r:ℚ) / (2:ℚ)^t⌋ = (q:ℤ) := by
    rw [Int.floor_eq_iff]
    constructor
    · rw [le_div_iff₀ hPQ, hrQ]; push_cast; linarith
    · rw [div_lt_iff₀ hPQ, hrQ]; push_cast; ring_nf; linarith
  have hfrac : (r:ℚ) / (2:ℚ)^t - ((q:ℤ):ℚ) = (rem:ℚ) / (2:ℚ)^t := by
    rw [hrQ]; push_cast; field_simp; ring
  simp only [rndHalfEven, hfloor, hfrac]
  rcases lt_trichotomy (2 * rem) (2^t) with h|h|h
  · have hRHS : roundNatDiv r t = q := by
      simp only [roundNatDiv, ← hq_def, ← hrem_def]
      rw [if_neg (by omega), if_pos h]
    have hc : (rem:ℚ) / (2:ℚ)^t < 1/2 := by
      rw [div_lt_div_iff₀ hPQ two_pos, one_mul]
      exact_mod_cast (by omega : rem * 2 < 2^t)
    rw [if_neg (by linarith), if_pos hc, hRHS]
  · have hc : (rem:ℚ) / (2:ℚ)^t = 1/2 := by
      rw [div_eq_div_iff hPQ.ne' two_ne_zero, one_mul]
      exact_mod_cast (by omega : rem * 2 = 2^t)
    rw [if_neg (by rw [hc]; exact lt_irrefl _), if_neg (by rw [hc]; exact lt_irrefl _)]
    have hRHS : roundNatDiv r t = if q % 2 = 0 then q else q + 1 := by
      simp only [roundNatDiv, ← hq_def, ← hrem_def]
      rw [if_neg (by omega), if_neg (by omega)]
    rw [hRHS]
    by_cases hpar : q % 2 = 0
    · rw [if_pos (by omega : (q:ℤ) % 2 = 0), if_pos hpar]
    · rw [if_neg (by omega : ¬ (q:ℤ) % 2 = 0), if_neg hpar]
      push_cast
      ring
  · have hRHS : roundNatDiv r t = q + 1 := by
      simp only [roundNatDiv, ← hq_def, ← hrem_def]
      rw [if_pos h]
    have hc : 1/2 < (rem:ℚ) / (2:ℚ)^t := by
      rw [div_lt_div_iff₀ two_pos hPQ, one_mul]
      exact_mod_cast (by omega : 2^t < rem * 2)
    rw [if_pos hc, hRHS]
    push_cast
    ring

/-- Rounding maps zero to zero. -/
theorem flRound_zero (prec : ℕ) : flRound prec 0 = 0 := by
  simp [flRound]

/-- Naturals below `2^prec` are exactly representable and round to themselves. -/
theorem flRound_nat_small (prec m : ℕ) (h : m < 2^prec) :
    flRound prec ((m:ℕ):ℚ) = (m:ℚ) := by
  rcases Nat.eq_zero_or_pos m with hm | hm
  · subst hm; simpa using flRound_zero prec
  · have := flRound_exact prec m 0 hm h
    simpa using this

/-- Rounded values are nonnegative. -/
theorem flRound_nonneg (prec : ℕ) (x : ℚ) : 0 ≤ flRound prec x := by
  by_cases hx : x ≤ 0
  · simp [flRound, hx]
  · push_neg at hx
    simp only [flRound, if_neg (not_le.mpr hx)]
    have h1 : 0 ≤ rndHalfEven (x * 2^((prec:ℤ) - 1 - qexp x)) :=
      rndHalfEven_nonneg _ (le_of_lt (mul_pos hx (zpow_pos two_pos _)))
    have h2 : (0:ℚ) < 2^(-((prec:ℤ) - 1 - qexp x)) := zpow_pos two_pos _
    have h1Q : (0:ℚ) ≤ ((rndHalfEven (x * 2^((prec:ℤ) - 1 - qexp x)) : ℤ) : ℚ) := by
      exact_mod_cast h1
    exact mul_nonneg h1Q h2.le

/-- Rounding never exceeds a power-of-two upper bound of its argument. -/
theorem flRound_le_zpow (prec : ℕ) (hp : 0 < prec) (x : ℚ) (k : ℤ)
    (h : x ≤ 2^k) : flRound prec x ≤ 2^k := by
  by_cases hx : x ≤ 0
  · simp only [flRound, if_pos hx]
    exact (zpow_pos (two_pos (α := ℚ)) k).le
  · push_neg at hx
    rcases eq_or_lt_of_le h with heq | hlt
    · have hone := flRound_exact prec 1 k (by norm_num)
        (Nat.one_lt_two_pow_iff.mpr hp.ne')
      simp only [Nat.cast_one, one_mul] at hone
      rw [heq, hone]
    · obtain ⟨hq1, hq2⟩ := qexp_spec x hx
      set e := qexp x with he_def
      have hek : e < k := by
        by_contra hcon
        push_neg at hcon
        have := zpow_le_zpow_right₀ (by norm_num : (1:ℚ) ≤ 2) hcon
        linarith
      set s : ℤ := (prec:ℤ) - 1 - e with hs_def
      have hy_lt : x * 2^s < 2^(prec:ℤ) := by
        calc x * 2^s < 2^(e+1) * 2^s := mul_lt_mul_of_pos_right hq2 (zpow_pos two_pos _)
        _ = 2^(prec:ℤ) := by
            rw [← zpow_add₀ (two_ne_zero (α := ℚ))]
            congr 1
            rw [hs_def]
            ring
      have hrle : (rndHalfEven (x * 2^s) : ℚ) ≤ 2^(prec:ℤ) := by
        have h1 := rndHalfEven_le (x * 2^s)
        have h2 : (rndHalfEven (x * 2^s) : ℚ) < 2^(prec:ℤ) + 1/2 := by linarith
        have h3 : ((2:ℚ))^(prec:ℤ) = ((2^prec : ℤ) : ℚ) := by push_cast [zpow_natCast]; ring
        rw [h3] at h2 ⊢
        have h4 : (rndHalfEven (x * 2^s) : ℚ) < ((2^prec : ℤ) : ℚ) + 1 := by linarith
        have h5 : rndHalfEven (x * 2^s) < 2^prec + 1 := by exact_mod_cast h4
        exact_mod_cast (by omega : rndHalfEven (x * 2^s) ≤ 2^prec)
      calc flRound prec x = (rndHalfEven (x * 2^s) : ℚ) * 2^(-s) := by
            simp only [flRound, if_neg (not_le.mpr hx), ← he_def, ← hs_def]
      _ ≤ 2^(prec:ℤ) * 2^(-s) :=
            mul_le_mul_of_nonneg_right hrle (zpow_pos two_pos _).le
      _ = 2^(e+1) := by
            rw [← zpow_add₀ (two_ne_zero (α := ℚ))]
            congr 1
            rw [hs_def]
            ring
      _ ≤ 2^k := zpow_le_zpow_right₀ (by norm_num : (1:ℚ) ≤ 2) (by omega)

/-- Rounding a natural in the binade `[2^(p+t), 2^(p+1+t))` to `p+1` significand bits scales the ties-to-even rounding of `r / 2^t` back up by `2^t`. -/
theorem flRound_nat_high (p t r : ℕ) (h1 : 2^(p+t) ≤ r) (h2 : r < 2^(p+1+t)) :
    flRound (p+1) ((r:ℕ):ℚ) = ((roundNatDiv r t : ℕ) : ℚ) * (2:ℚ)^t := by
  have hr0 : 0 < r := lt_of_lt_of_le (by positivity) h1
  have hxpos : (0:ℚ) < (r:ℚ) := by exact_mod_cast hr0
  have he : qexp (r:ℚ) = (p:ℤ) + t := by
    apply qexp_unique _ _ hxpos
    · rw [show ((p:ℤ)+(t:ℤ)) = ((p+t:ℕ):ℤ) by push_cast; ring, zpow_natCast]
      exact_mod_cast h1
    · rw [show ((p:ℤ)+(t:ℤ)+1) = ((p+1+t:ℕ):ℤ) by push_cast; ring, zpow_natCast]
      exact_mod_cast h2
  simp only [flRound, if_neg (not_le.mpr hxpos), he]
  have hs : ((p+1:ℕ):ℤ) - 1 - ((p:ℤ) + (t:ℤ)) = -(t:ℤ) := by push_cast; ring
  rw [hs]
  have hy : (r:ℚ) * 2^(-(t:ℤ)) = (r:ℚ) / (2:ℚ)^t := by
    rw [zpow_neg, div_eq_mul_inv, zpow_natCast]
  rw [hy, rndHalfEven_natDiv, neg_neg, zpow_natCast]
  push_cast
  ring

/-- Every natural within 128 of `2^32` rounds to exactly `2^32` in binary32; in particular the conversion of `UINT32_MAX` to float is `2^32`. -/
theorem fl32_top (r : ℕ) (h1 : 2^32 - 128 ≤ r) (h2 : r < 2^32) :
    fl32 ((r:ℕ):ℚ) = 2^32 := by
  have hhigh := flRound_nat_high 23 8 r (by omega) (by omega)
  have hrdn : roundNatDiv r 8 = 2^24 := by
    have hq : r / 2^8 = 16777215 := by omega
    have hrem : 128 ≤ r % 2^8 := by omega
    simp only [roundNatDiv]
    rcases Nat.lt_or_ge 128 (r % 2^8) with hgt | hle
    · rw [if_pos (by omega), hq]
      norm_num
    · rw [if_neg (by omega), if_neg (by omega), if_neg (by omega), hq]
      norm_num
  show flRound (23+1) ((r:ℕ):ℚ) = 2^32
  rw [hhigh, hrdn]
  push_cast
  norm_num

/-! ### Evaluation of the distribution mappers -/

/-- Conversion of `UINT32_MAX` to binary32 rounds up to exactly `2^32`. -/
theorem fl32_umax : fl32 (4294967295 : ℚ) = 4294967296 := by
  have h := fl32_top 4294967295 (by norm_num) (by norm_num)
  rw [show ((4294967295:ℕ):ℚ) = (4294967295:ℚ) by norm_num] at h
  rw [h]
  norm_num

/-- The computed form of `randomicFloatCC`: the denominator constant is the
rounded `UINT32_MAX`, which is `2^32`. -/
theorem floatCC_eq_div (r : ℕ) :
    randomicFloatCC r = fl32 (fl32 (r:ℚ) / 4294967296) := by
  rw [randomicFloatCC, fl32_umax]

/-- A 32-bit natural rounds to at most `2^32` in binary32. -/
theorem fl32_nat_le (r : ℕ) (h : r < 2^32) : fl32 ((r:ℕ):ℚ) ≤ 4294967296 := by
  have h1 : ((r:ℕ):ℚ) ≤ (2:ℚ)^(32:ℤ) := by
    rw [show ((2:ℚ)^(32:ℤ)) = 4294967296 by norm_num]
    have : (r:ℚ) ≤ ((4294967295:ℕ):ℚ) := by exact_mod_cast Nat.le_of_lt_succ (by omega)
    calc (r:ℚ) ≤ ((4294967295:ℕ):ℚ) := this
    _ ≤ 4294967296 := by norm_num
  have h2 := flRound_le_zpow 24 (by norm_num) ((r:ℕ):ℚ) 32 h1
  rw [show ((2:ℚ)^(32:ℤ)) = 4294967296 by norm_num] at h2
  exact h2

/-- `randomicFloatCC` never exceeds 1. -/
theorem floatCC_le_one (r : ℕ) (h : r < 2^32) : randomicFloatCC r ≤ 1 := by
  rw [floatCC_eq_div]
  have h1 := fl32_nat_le r h
  have h2 : fl32 ((r:ℕ):ℚ) / 4294967296 ≤ 1 := by
    rw [div_le_one (by norm_num)]
    exact h1
  have h3 := flRound_le_zpow 24 (by norm_num) (fl32 ((r:ℕ):ℚ) / 4294967296) 0
    (by rw [zpow_zero]; exact h2)
  rw [zpow_zero] at h3
  exact h3

/-- `randomicFloatCC` is nonnegative. -/
theorem floatCC_nonneg (r : ℕ) : 0 ≤ randomicFloatCC r :=
  flRound_nonneg 24 _

/-- For every raw draw within 128 of `2^32`, `randomicFloatCC` returns
exactly 1. -/
theorem floatCC_eq_one_top (r : ℕ) (h1 : 2^32 - 128 ≤ r) (h2 : r < 2^32) :
    randomicFloatCC r = 1 := by
  rw [floatCC_eq_div, fl32_top r h1 h2]
  rw [show ((2:ℚ)^32 / 4294967296) = 1 by norm_num]
  have := flRound_nat_small 24 1 (by norm_num)
  simpa using this

/-- `randomicFloatCC` maps the zero draw to exactly 0. -/
theorem floatCC_zero : randomicFloatCC 0 = 0 := by
  rw [floatCC_eq_div]
  rw [show ((0:ℕ):ℚ) = 0 by norm_num]
  rw [show fl32 (0:ℚ) = 0 from flRound_zero 24]
  rw [show ((0:ℚ) / 4294967296) = 0 by norm_num]
  exact flRound_zero 24

/-- `randomicFloatCC` maps the maximal draw to exactly 1. -/
theorem floatCC_one : randomicFloatCC 4294967295 = 1 :=
  floatCC_eq_one_top 4294967295 (by norm_num) (by norm_num)

/-- The exact value of `randomicFloatCO`: all three float operations are
exact, so the result is `(r >> 8) / 2^24` as a rational. -/
theorem floatCO_eq (r : ℕ) (h : r < 2^32) :
    randomicFloatCO r = ((r >>> 8 : ℕ) : ℚ) / 2^24 := by
  have hm : r >>> 8 < 2^24 := by
    rw [Nat.shiftRight_eq_div_pow]
    omega
  have h1 : fl32 ((r >>> 8 : ℕ):ℚ) = ((r >>> 8:ℕ):ℚ) := flRound_nat_small 24 _ hm
  rw [randomicFloatCO, h1]
  rcases Nat.eq_zero_or_pos (r >>> 8) with h0 | h0
  · rw [h0]
    simp [fl32, flRound_zero]
  · have h2 := flRound_exact 24 (r >>> 8) (-24) h0 hm
    rw [show ((r >>> 8:ℕ):ℚ) * (2:ℚ)^(-24:ℤ) = ((r >>> 8:ℕ):ℚ) / 16777216 from by
      rw [zpow_neg, div_eq_mul_inv]; norm_num] at h2
    rw [fl32, h2]
    norm_num

/-- The exact value of `randomicDoubleCO`: both double operations are exact,
so the result is `r / 2^32` as a rational. -/
theorem doubleCO_eq (r : ℕ) (h : r < 2^32) :
    randomicDoubleCO r = ((r:ℕ) : ℚ) / 2^32 := by
  have hm : r < 2^53 := by omega
  have h1 : fl64 ((r:ℕ):ℚ) = ((r:ℕ):ℚ) := flRound_nat_small 53 _ hm
  rw [randomicDoubleCO, h1]
  rcases Nat.eq_zero_or_pos r with h0 | h0
  · rw [h0]
    simp [fl64, flRound_zero]
  · have h2 := flRound_exact 53 r (-32) h0 hm
    rw [show ((r:ℕ):ℚ) * (2:ℚ)^(-32:ℤ) = ((r:ℕ):ℚ) / 4294967296 from by
      rw [zpow_neg, div_eq_mul_inv]; norm_num] at h2
    rw [fl64, h2]
    norm_num

/-- Shape of rounded 32-bit naturals: every binary32 rounding of a 32-bit
natural is `m * 2^j` with a 24-bit-or-boundary `m` and a scale below 9. -/
theorem fl32_shape (r : ℕ) (h : r < 2^32) :
    ∃ m j : ℕ, m ≤ 2^24 ∧ j < 9 ∧ fl32 ((r:ℕ):ℚ) = (m:ℚ) * (2:ℚ)^(j:ℕ) := by
  rcases Nat.lt_or_ge r (2^24) with hsmall | hbig
  · refine ⟨r, 0, by omega, by omega, ?_⟩
    rw [fl32, flRound_nat_small 24 r hsmall]
    norm_num
  · set a := Nat.log2 r with ha_def
    have hr0 : 0 < r := by omega
    have ha1 : 2^a ≤ r := Nat.log2_self_le hr0.ne'
    have ha2 : r < 2^(a+1) := Nat.lt_log2_self
    have ha24 : 24 ≤ a := by
      by_contra hcon
      push_neg at hcon
      have hle : 2^(a+1) ≤ 2^24 := Nat.pow_le_pow_right (by norm_num) (by omega)
      omega
    have ha31 : a ≤ 31 := by
      by_contra hcon
      push_neg at hcon
      have hle : 2^32 ≤ 2^a := Nat.pow_le_pow_right (by norm_num) (by omega)
      omega
    set t := a - 23 with ht_def
    have hhigh := flRound_nat_high 23 t r
      (by rw [show 23 + t = a by omega]; exact ha1)
      (by rw [show 23 + 1 + t = a + 1 by omega]; exact ha2)
    have hq : r / 2^t < 2^24 := by
      apply Nat.div_lt_of_lt_mul
      calc r < 2^(a+1) := ha2
      _ = 2^24 * 2^t := by rw [← pow_add]; congr 1; omega
      _ = 2^t * 2^24 := by ring
    have hrn : roundNatDiv r t ≤ 2^24 := by
      simp only [roundNatDiv]
      split_ifs <;> omega
    refine ⟨roundNatDiv r t, t, hrn, by omega, ?_⟩
    rw [fl32, show (24:ℕ) = 23 + 1 from rfl]
    exact hhigh

/-- A pointwise factorization of an image over a range through a product of
ranges yields a subset of the corresponding image. -/
theorem image_range_subset_helper (f : ℕ → ℚ) (g : ℕ × ℕ → ℚ) (N A B : ℕ)
    (h : ∀ r, r < N → ∃ m j : ℕ, m < A ∧ j < B ∧ f r = g (m, j)) :
    (Finset.range N).image f ⊆ ((Finset.range A) ×ˢ (Finset.range B)).image g := by
  intro v hv
  obtain ⟨r, hr, hvr⟩ := Finset.mem_image.mp hv
  obtain ⟨m, j, hm, hj, hfl⟩ := h r (Finset.mem_range.mp hr)
  rw [← hvr, hfl]
  refine Finset.mem_image_of_mem _ ?_
  rw [Finset.mem_product]
  exact ⟨Finset.mem_range.mpr hm, Finset.mem_range.mpr hj⟩

/-- The common shape of all `randomicFloatCC` outputs. -/
def floatCCshape (pr : ℕ × ℕ) : ℚ :=
  fl32 (((pr.1:ℚ) * (2:ℚ)^pr.2) / 4294967296)

/-- Pointwise: every `randomicFloatCC` output is `floatCCshape` of a pair
with first component at most `2^24` and scale below 9. -/
theorem floatCC_pointwise (r : ℕ) (hr : r < 2^32) :
    ∃ m j : ℕ, m < 2^24 + 1 ∧ j < 9 ∧ randomicFloatCC r = floatCCshape (m, j) := by
  obtain ⟨m, j, hm, hj, hfl⟩ := fl32_shape r hr
  refine ⟨m, j, Nat.lt_succ_of_le hm, hj, ?_⟩
  rw [floatCC_eq_div, hfl]
  rfl

/-- The value set of `randomicFloatCC` has at most `9 * (2^24 + 1)`
elements. -/
theorem floatCCvals_card_le : floatCCvals.card ≤ 9 * (2^24 + 1) := by
  have hsub := image_range_subset_helper randomicFloatCC floatCCshape
    (2^32) (2^24 + 1) 9 floatCC_pointwise
  calc floatCCvals.card
      = ((Finset.range (2^32)).image randomicFloatCC).card := rfl
  _ ≤ (((Finset.range (2^24 + 1)) ×ˢ (Finset.range 9)).image floatCCshape).card :=
      Finset.card_le_card hsub
  _ ≤ ((Finset.range (2^24 + 1)) ×ˢ (Finset.range 9)).card := Finset.card_image_le
  _ = (2^24 + 1) * 9 := by
      rw [Finset.card_product, Finset.card_range, Finset.card_range]
  _ = 9 * (2^24 + 1) := by ring

/-- The image of the 2^32 raw draws under `randomicFloatCO` is exactly the
set of dyadic values `k / 2^24` for `k` below `2^24`. -/
theorem floatCO_image :
    (Finset.range (2^32)).image randomicFloatCO
      = (Finset.range (2^24)).image (fun k : ℕ => (k:ℚ) / 2^24) := by
  apply Finset.ext
  intro v
  simp only [Finset.mem_image, Finset.mem_range]
  constructor
  · rintro ⟨r, hr, rfl⟩
    refine ⟨r >>> 8, ?_, (floatCO_eq r hr).symm⟩
    rw [Nat.shiftRight_eq_div_pow]
    omega
  · rintro ⟨k, hk, rfl⟩
    refine ⟨k * 2^8, by omega, ?_⟩
    rw [floatCO_eq _ (by omega)]
    have hdk : (k * 2^8) >>> 8 = k := by
      rw [Nat.shiftRight_eq_div_pow, Nat.mul_div_cancel _ (by norm_num)]
    rw [hdk]

/-- The dyadic injection is injective, so `randomicFloatCO` takes exactly
2^24 distinct values over all raw draws. -/
theorem floatCO_card :
    ((Finset.range (2^32)).image randomicFloatCO).card = 2^24 := by
  rw [floatCO_image]
  have hinj : Function.Injective (fun k : ℕ => (k:ℚ) / 2^24) := by
    intro x y hxy
    simp only at hxy
    field_simp at hxy
    exact_mod_cast hxy
  rw [Finset.card_image_of_injective _ hinj, Finset.card_range]

/-- Every dyadic value `k / 2^24` with `k < 2^24` has exactly `2^8` raw
preimages among the 2^32 raw draws: the output distribution is uniform. -/
theorem floatCO_fiber (k : ℕ) (hk : k < 2^24) :
    ((Finset.range (2^32)).filter
        (fun r => randomicFloatCO r = (k:ℚ) / 2^24)).card = 2^8 := by
  have heq : (Finset.range (2^32)).filter
        (fun r => randomicFloatCO r = (k:ℚ) / 2^24)
      = Finset.Ico (k * 2^8) (k * 2^8 + 2^8) := by
    apply Finset.ext
    intro r
    simp only [Finset.mem_filter, Finset.mem_range, Finset.mem_Ico]
    constructor
    · rintro ⟨hr, hv⟩
      rw [floatCO_eq r hr] at hv
      have hsh : r >>> 8 = k := by
        field_simp at hv
        exact_mod_cast hv
      rw [Nat.shiftRight_eq_div_pow] at hsh
      omega
    · rintro ⟨h1, h2⟩
      have hr : r < 2^32 := by omega
      refine ⟨hr, ?_⟩
      rw [floatCO_eq r hr]
      have hsh : r >>> 8 = k := by
        rw [Nat.shiftRight_eq_div_pow]
        omega
      rw [hsh]
  rw [heq, Nat.card_Ico]
  omega

/-! ### C6, C7, C8, C9: the distribution mappers -/

/-- C6: `randomicFloatCO` returns exactly `(r >> 8) / 2^24`, lies in
`[0, 1)` and never reaches 1, takes exactly 2^24 distinct values with every
value having exactly 2^8 preimages (equally likely over uniform raw draws),
and at the maximal raw draw returns `(2^24 - 1) / 2^24`. -/
theorem floatCO_props :
    (∀ r : ℕ, r < 2^32 →
      randomicFloatCO r = ((r >>> 8 : ℕ) : ℚ) / 2^24
      ∧ 0 ≤ randomicFloatCO r ∧ randomicFloatCO r < 1)
    ∧ (Finset.range (2^32)).image randomicFloatCO
        = (Finset.range (2^24)).image (fun k : ℕ => (k:ℚ) / 2^24)
    ∧ ((Finset.range (2^32)).image randomicFloatCO).card = 2^24
    ∧ (∀ k : ℕ, k < 2^24 →
        ((Finset.range (2^32)).filter
          (fun r => randomicFloatCO r = (k:ℚ) / 2^24)).card = 2^8)
    ∧ randomicFloatCO 4294967295 = (2^24 - 1) / 2^24 := by
  refine ⟨?_, floatCO_image, floatCO_card, floatCO_fiber, ?_⟩
  · intro r hr
    have he := floatCO_eq r hr
    have hm : r >>> 8 < 2^24 := by
      rw [Nat.shiftRight_eq_div_pow]
      omega
    refine ⟨he, ?_, ?_⟩
    · rw [he]
      positivity
    · rw [he, div_lt_one (by norm_num)]
      calc ((r >>> 8 : ℕ):ℚ) < ((2^24 : ℕ):ℚ) := by exact_mod_cast hm
      _ = 2^24 := by norm_num
  · rw [floatCO_eq 4294967295 (by norm_num)]
    rw [show (4294967295 : ℕ) >>> 8 = 16777215 from by decide]
    norm_num

/-- Witness for C6 at the raw draw 0. -/
theorem floatCO_props_witness :
    randomicFloatCO 0 = ((0 >>> 8 : ℕ) : ℚ) / 2^24 :=
  (floatCO_props.1 0 (by norm_num)).1

/-- C7: `randomicFloatCC` computes `r / (2^32 - 1)` in binary32 arithmetic
with a result in the closed range `[0, 1]`; the maximal raw draw returns
exactly 1 and the zero draw returns exactly 0. -/
theorem floatCC_props :
    (∀ r : ℕ, r < 2^32 → 0 ≤ randomicFloatCC r ∧ randomicFloatCC r ≤ 1)
    ∧ randomicFloatCC 4294967295 = 1
    ∧ randomicFloatCC 0 = 0 :=
  ⟨fun r h => ⟨floatCC_nonneg r, floatCC_le_one r h⟩, floatCC_one, floatCC_zero⟩

/-- Witness for C7 at the raw draw 5. -/
theorem floatCC_props_witness :
    0 ≤ randomicFloatCC 5 ∧ randomicFloatCC 5 ≤ 1 :=
  floatCC_props.1 5 (by norm_num)

/-- C8: `randomicDoubleCO` returns exactly `r / 2^32`, lies in `[0, 1)`,
and is injective over the 2^32 raw draws (each raw value yields a distinct,
exactly representable result). -/
theorem doubleCO_props :
    (∀ r : ℕ, r < 2^32 →
      randomicDoubleCO r = ((r:ℕ) : ℚ) / 2^32
      ∧ 0 ≤ randomicDoubleCO r ∧ randomicDoubleCO r < 1)
    ∧ (∀ r1 r2 : ℕ, r1 < 2^32 → r2 < 2^32 →
        randomicDoubleCO r1 = randomicDoubleCO r2 → r1 = r2) := by
  constructor
  · intro r hr
    have he := doubleCO_eq r hr
    refine ⟨he, ?_, ?_⟩
    · rw [he]
      positivity
    · rw [he, div_lt_one (by norm_num)]
      calc ((r:ℕ):ℚ) < ((2^32 : ℕ):ℚ) := by exact_mod_cast hr
      _ = 2^32 := by norm_num
  · intro r1 r2 h1 h2 heq
    rw [doubleCO_eq r1 h1, doubleCO_eq r2 h2] at heq
    field_simp at heq
    exact_mod_cast heq

/-- Witness for C8 at the raw draw 3. -/
theorem doubleCO_props_witness :
    randomicDoubleCO 3 = ((3:ℕ) : ℚ) / 2^32 :=
  (doubleCO_props.1 3 (by norm_num)).1

/-- C9: the binary32 conversion of `UINT32_MAX` rounds up to exactly `2^32`;
every one of the 128 raw draws in `[2^32 - 128, 2^32)` also converts to
`2^32` and therefore makes `randomicFloatCC` return exactly 1; and the number
of distinct values `randomicFloatCC` can return is at most `9 * (2^24 + 1)`,
far below `2^32`. -/
theorem floatCC_saturation :
    fl32 (4294967295 : ℚ) = 4294967296
    ∧ (∀ r : ℕ, 2^32 - 128 ≤ r → r < 2^32 →
        fl32 ((r:ℕ):ℚ) = 4294967296 ∧ randomicFloatCC r = 1)
    ∧ floatCCvals.card ≤ 9 * (2^24 + 1)
    ∧ 9 * (2^24 + 1) < 2^32 := by
  refine ⟨fl32_umax, ?_, floatCCvals_card_le, by norm_num⟩
  intro r h1 h2
  refine ⟨?_, floatCC_eq_one_top r h1 h2⟩
  rw [fl32_top r h1 h2]
  norm_num

/-- Witness for C9 at the raw draw 4294967200. -/
theorem floatCC_saturation_witness :
    randomicFloatCC 4294967200 = 1 :=
  (floatCC_saturation.2.1 4294967200 (by norm_num) (by norm_num)).2

end Randomic
